import Mathlib

/-!
Verification development for the chain-import core of a proof-of-work
blockchain node: the chain manager (core/chain_manager.go) and the
downloader (eth/downloader/downloader.go).  Go structures are embedded
shallowly: big integers become Int, uint64 counters become Nat, 32-byte
hashes become Nat (opaque identifiers compared by value), maps become
association lists, channels become explicit event lists, and mutation
becomes state passing.
-/

namespace GethCore

/-- Hashes are 32-byte opaque identifiers compared by value; we embed them
as natural numbers.  The zero hash is the sentinel meaning unknown. -/
abbrev Hash := Nat

/-- Block embeds the fields of types.Block and its header that the chain
manager reads: parent hash, number, timestamp, difficulty, gas limits, the
stamped total difficulty Td and the transient queued flag.  The hash of the
header is carried as a field (hashing itself is delegated); store
consistency is stated as hypotheses where needed. -/
structure Block where
  hash : Hash
  parentHash : Hash
  number : Nat
  time : Nat
  difficulty : Int
  gasLimit : Int
  gasUsed : Int
  td : Int
  queued : Bool
deriving Repr, DecidableEq

/-- Modelled from the spec: params.DifficultyBoundDivisor, a configured
chain parameter (the params package is not part of the two core files). -/
def DifficultyBoundDivisor : Int := 2048

/-- Modelled from the spec: params.DurationLimit. -/
def DurationLimit : Int := 8

/-- Modelled from the spec: params.MinimumDifficulty. -/
def MinimumDifficulty : Int := 131072

/-- Modelled from the spec: params.GasLimitBoundDivisor. -/
def GasLimitBoundDivisor : Int := 1024

/-- Modelled from the spec: params.MinGasLimit. -/
def MinGasLimit : Int := 125000

/-- Modelled from the spec: params.GenesisGasLimit. -/
def GenesisGasLimit : Int := 3141592

/-- CalcDifficulty from core/chain_manager.go.  adjust is the parent
difficulty divided by the bound divisor (big.Int Div is Euclidean
division); the signed time delta is compared against DurationLimit, and
the result is replaced by MinimumDifficulty when it falls below it. -/
def calcDifficulty (block parent : Block) : Int :=
  let adjust : Int := Int.ediv parent.difficulty DifficultyBoundDivisor
  let diff : Int :=
    if ((block.time : Int) - (parent.time : Int)) < DurationLimit then
      parent.difficulty + adjust
    else
      parent.difficulty - adjust
  if diff < MinimumDifficulty then MinimumDifficulty else diff

/-- CalcTD from core/chain_manager.go: when the parent lookup returned
nil the block difficulty itself is used, otherwise the parent Td plus the
block difficulty. -/
def calcTD (block : Block) (parent : Option Block) : Int :=
  match parent with
  | none => block.difficulty
  | some p => p.td + block.difficulty

/-- CalcGasLimit from core/chain_manager.go.  common.BigMax and
common.BigMin on big integers are max and min. -/
def calcGasLimit (parent : Block) : Int :=
  let decay : Int := Int.ediv parent.gasLimit GasLimitBoundDivisor
  let contrib : Int :=
    Int.ediv (Int.ediv (parent.gasUsed * 3) 2) GasLimitBoundDivisor
  let gl : Int := max (parent.gasLimit - decay + contrib + 1) MinGasLimit
  if gl < GenesisGasLimit then
    min GenesisGasLimit (parent.gasLimit + decay)
  else
    gl

/-- Replaces the stamped total difficulty of a block, as the Go code does
by assigning block.Td. -/
def Block.setTd (b : Block) (t : Int) : Block := { b with td := t }

/-- Marks a block queued, as block.SetQueued(true). -/
def Block.setQueued (b : Block) : Block := { b with queued := true }

/-- Modelled from the spec: BlockCache (core/block_cache.go is not among
the two source files).  A fixed-capacity insertion-ordered mapping from
hash to block; push inserts and evicts the oldest entry at capacity. -/
structure BlockCache where
  capacity : Nat
  blocks : List Block
deriving Repr, DecidableEq

/-- Modelled from the spec: BlockCache.Push inserts the block, replacing
any entry with the same hash, evicting the oldest entry at capacity. -/
def BlockCache.push (c : BlockCache) (b : Block) : BlockCache :=
  let l := c.blocks.filter (fun x => x.hash ≠ b.hash)
  if c.capacity ≤ l.length then
    { c with blocks := l.drop (l.length + 1 - c.capacity) ++ [b] }
  else
    { c with blocks := l ++ [b] }

/-- Modelled from the spec: BlockCache.Has. -/
def BlockCache.hasHash (c : BlockCache) (h : Hash) : Bool :=
  c.blocks.any (fun x => x.hash == h)

/-- Modelled from the spec: BlockCache.Delete. -/
def BlockCache.deleteHash (c : BlockCache) (h : Hash) : BlockCache :=
  { c with blocks := c.blocks.filter (fun x => x.hash ≠ h) }

/-- The chain manager state that InsertChain reads and writes: the
hash-keyed block database, the number index, the LastBlock pointer, the
cached head block and total difficulty, the block cache and the
future-block cache.  Database keyspaces are association lists with the
most recent write first. -/
structure ChainState where
  blockDb : List (Hash × Block)
  numDb : List (Nat × Hash)
  lastBlockDb : Hash
  td : Int
  currentBlock : Block
  lastBlockHash : Hash
  cache : BlockCache
  futureBlocks : BlockCache
deriving Repr, DecidableEq

/-- GetBlock from core/chain_manager.go: a read of the block-hash keyspace
(the cache read is commented out in the source). -/
def ChainState.getBlock (st : ChainState) (h : Hash) : Option Block :=
  st.blockDb.lookup h

/-- The private insert of core/chain_manager.go: writes the number index
and the LastBlock pointer and installs the block as current head. -/
def ChainState.insertBlock (st : ChainState) (b : Block) : ChainState :=
  { st with
    numDb := (b.number, b.hash) :: st.numDb
    lastBlockDb := b.hash
    currentBlock := b
    lastBlockHash := b.hash }

/-- The private write of core/chain_manager.go: persists the block under
its hash key and pushes it into the block cache. -/
def ChainState.writeBlock (st : ChainState) (b : Block) : ChainState :=
  { st with
    blockDb := (b.hash, b) :: st.blockDb
    cache := st.cache.push b }

/-- setTotalDifficulty from core/chain_manager.go. -/
def ChainState.setTotalDifficulty (st : ChainState) (t : Int) : ChainState :=
  { st with td := t }

/-- Removal of a block from the future-block cache, as
futureBlocks.Delete(block.Hash()) at the end of an InsertChain
iteration. -/
def ChainState.deleteFuture (st : ChainState) (h : Hash) : ChainState :=
  { st with futureBlocks := st.futureBlocks.deleteHash h }

/-- Parking a block in the future-block cache, as futureBlocks.Push. -/
def ChainState.pushFuture (st : ChainState) (b : Block) : ChainState :=
  { st with futureBlocks := st.futureBlocks.push b }

/-- The result classes of the external block processor contract. -/
inductive ProcResult where
  | ok
  | knownBlock
  | futureBlock
  | parentMissing
  | other
deriving Repr, DecidableEq

/-- maxTimeFutureBlocks from core/chain_manager.go. -/
def maxTimeFutureBlocks : Nat := 30

/-- The error kinds InsertChain can return, paired with a failing index.
nonceWaitStuck embeds the run in which the consumer would wait forever on
a nonce result that is never delivered; reorgDiverged embeds a parent
walk during reorganisation that never reaches a common ancestor. -/
inductive InsertErr where
  | nonceErr (hash : Hash) (number : Nat)
  | badHashErr (hash : Hash)
  | futureErr
  | procErr
  | invalidOldChain
  | invalidNewChain
  | nonceWaitStuck
  | reorgDiverged
deriving Repr, DecidableEq

/-- A result of the parallel nonce verifier: the block index and whether
its proof of work verified. -/
structure NonceResult where
  i : Nat
  valid : Bool
deriving Repr, DecidableEq

/-- The per-index wait of the InsertChain loop: while index i is not yet
checked, receive the next verifier result, mark its index checked, and
fail with that result's index on an invalid nonce.  pending is the arrival
order of the verifier channel; none embeds the run in which the channel
never delivers the needed result. -/
def waitNonce (chain : List Block) (i : Nat) (checked : List Nat)
    (pending : List NonceResult) :
    Option (Except (Nat × InsertErr) (List Nat × List NonceResult)) :=
  if checked.contains i then some (Except.ok (checked, pending))
  else
    match pending with
    | [] => none
    | r :: rest =>
      if r.valid then waitNonce chain i (r.i :: checked) rest
      else
        some (Except.error (r.i,
          InsertErr.nonceErr (((chain.get? r.i).map Block.hash).getD 0)
            (((chain.get? r.i).map Block.number).getD 0)))

/-- The outcome of a reorganisation diff walk. -/
inductive DiffResult where
  | ok (newChain : List Block)
  | errOld
  | errNew
  | outOfFuel
deriving Repr, DecidableEq

/-- The height-alignment loop of diff that lowers the old side to the
target number without accumulating, with explicit fuel for the parent
walk.  The inner option is the final block pointer (none when a parent
lookup failed). -/
def walkDownTo (st : ChainState) (target : Nat) :
    Nat → Option Block → Option (Option Block)
  | 0, _ => none
  | _ + 1, none => some none
  | fuel + 1, some b =>
    if b.number ≠ target then walkDownTo st target fuel (st.getBlock b.parentHash)
    else some (some b)

/-- The height-alignment loop of diff that lowers the new side to the
target number, accumulating each new-side block passed, with explicit
fuel. -/
def walkDownAccum (st : ChainState) (target : Nat) :
    Nat → Option Block → List Block → Option (Option Block × List Block)
  | 0, _, _ => none
  | _ + 1, none, acc => some (none, acc)
  | fuel + 1, some b, acc =>
    if b.number ≠ target then
      walkDownAccum st target fuel (st.getBlock b.parentHash) (acc ++ [b])
    else
      some (some b, acc)

/-- The lockstep walk of diff towards the common ancestor: append each
new-side block, step both sides to their parents, and fail when a lookup
returns nothing (the old side is checked first). -/
def findCommon (st : ChainState) :
    Nat → Block → Block → List Block → DiffResult
  | 0, _, _, _ => DiffResult.outOfFuel
  | fuel + 1, oldB, newB, acc =>
    if oldB.hash == newB.hash then DiffResult.ok acc
    else
      match st.getBlock oldB.parentHash, st.getBlock newB.parentHash with
      | none, _ => DiffResult.errOld
      | some _, none => DiffResult.errNew
      | some o, some n => findCommon st fuel o n (acc ++ [newB])

/-- diff from core/chain_manager.go: align heights (accumulating the new
side), then walk both sides in lockstep to the common ancestor, returning
the buffer of new-side blocks.  Fuel bounds the parent walks; running out
embeds divergence on a malformed store. -/
def diffChains (st : ChainState) (oldBlock newBlock : Block) : DiffResult :=
  let fuel := oldBlock.number + newBlock.number + 2
  if newBlock.number < oldBlock.number then
    match walkDownTo st newBlock.number fuel (some oldBlock) with
    | none => DiffResult.outOfFuel
    | some none => DiffResult.errOld
    | some (some o) => findCommon st fuel o newBlock []
  else
    match walkDownAccum st oldBlock.number fuel (some newBlock) [] with
    | none => DiffResult.outOfFuel
    | some (none, _) => DiffResult.errNew
    | some (some n, acc) => findCommon st fuel oldBlock n acc

/-- merge from core/chain_manager.go: on a successful diff, insert every
buffered block into the number index (each install also moves the head
pointer; the outer loop installs the final head afterwards). -/
def mergeChains (st : ChainState) (oldBlock newBlock : Block) :
    Except InsertErr ChainState :=
  match diffChains st oldBlock newBlock with
  | DiffResult.ok newChain => Except.ok (newChain.foldl ChainState.insertBlock st)
  | DiffResult.errOld => Except.error InsertErr.invalidOldChain
  | DiffResult.errNew => Except.error InsertErr.invalidNewChain
  | DiffResult.outOfFuel => Except.error InsertErr.reorgDiverged

/-- The kinds of chain events assigned into the queued event array. -/
inductive ChainEventKind where
  | chainEvent (h : Hash)
  | chainSideEvent (h : Hash)
  | chainSplitEvent (h : Hash)
deriving Repr, DecidableEq

/-- The InsertChain iteration of core/chain_manager.go over the remaining
suffix of the batch.  chain is the full batch (read by the nonce error
path), i the index of the suffix head, checked and pending the nonce
consumer state, evs the trace of event-array assignments in order.
Returns the (index, error) pair of the Go function together with the
final state and event trace; success is (0, none). -/
def insertLoop (badHashes : Hash → Bool) (processor : Block → ProcResult)
    (now : Nat) (interrupt : Bool) (chain : List Block) :
    List Block → Nat → List Nat → List NonceResult → ChainState →
    List (Nat × ChainEventKind) →
    (Nat × Option InsertErr) × ChainState × List (Nat × ChainEventKind)
  | [], _, _, _, st, evs => ((0, none), st, evs)
  | block :: rest, i, checked, pending, st, evs =>
    if interrupt then ((0, none), st, evs)
    else
      match waitNonce chain i checked pending with
      | none => ((i, some InsertErr.nonceWaitStuck), st, evs)
      | some (Except.error (j, e)) => ((j, some e), st, evs)
      | some (Except.ok (checked, pending)) =>
        if badHashes block.hash then
          ((i, some (InsertErr.badHashErr block.hash)), st, evs)
        else
          let block := block.setTd (calcTD block (st.getBlock block.parentHash))
          match processor block with
          | ProcResult.knownBlock =>
            insertLoop badHashes processor now interrupt chain
              rest (i + 1) checked pending st evs
          | ProcResult.futureBlock =>
            if now + maxTimeFutureBlocks < block.time then
              ((i, some InsertErr.futureErr), st, evs)
            else
              insertLoop badHashes processor now interrupt chain
                rest (i + 1) checked pending (st.pushFuture block.setQueued)
                evs
          | ProcResult.parentMissing =>
            if st.futureBlocks.hasHash block.parentHash then
              insertLoop badHashes processor now interrupt chain
                rest (i + 1) checked pending (st.pushFuture block.setQueued)
                evs
            else
              ((i, some InsertErr.procErr), st, evs)
          | ProcResult.other => ((i, some InsertErr.procErr), st, evs)
          | ProcResult.ok =>
            let cblock := st.currentBlock
            if st.td < block.td then
              if block.parentHash ≠ cblock.hash then
                match mergeChains st cblock block with
                | Except.error e => ((i, some e), st, evs)
                | Except.ok st1 =>
                  let st2 := (st1.setTotalDifficulty block.td).insertBlock block
                  let evs2 := evs ++ [(i, ChainEventKind.chainSplitEvent block.hash),
                    (i, ChainEventKind.chainEvent block.hash)]
                  let st3 := (st2.writeBlock block)
                  let st4 := { st3 with futureBlocks := st3.futureBlocks.deleteHash block.hash }
                  insertLoop badHashes processor now interrupt chain
                    rest (i + 1) checked pending st4 evs2
              else
                let st2 := (st.setTotalDifficulty block.td).insertBlock block
                let evs2 := evs ++ [(i, ChainEventKind.chainEvent block.hash)]
                let st3 := (st2.writeBlock block)
                let st4 := { st3 with futureBlocks := st3.futureBlocks.deleteHash block.hash }
                insertLoop badHashes processor now interrupt chain
                  rest (i + 1) checked pending st4 evs2
            else
              let evs2 := evs ++ [(i, ChainEventKind.chainSideEvent block.hash)]
              let st3 := (st.writeBlock block)
              let st4 := { st3 with futureBlocks := st3.futureBlocks.deleteHash block.hash }
              insertLoop badHashes processor now interrupt chain
                rest (i + 1) checked pending st4 evs2

/-- InsertChain from core/chain_manager.go: run the insertion loop over
the whole batch starting from index 0 with no nonce results consumed.
nonceOrder is the order in which the parallel verifier delivers its
results on the channel. -/
def insertChain (badHashes : Hash → Bool) (processor : Block → ProcResult)
    (now : Nat) (interrupt : Bool) (nonceOrder : List NonceResult)
    (st : ChainState) (chain : List Block) :
    (Nat × Option InsertErr) × ChainState × List (Nat × ChainEventKind) :=
  insertLoop badHashes processor now interrupt chain chain 0 [] nonceOrder st []

/-- Concrete genesis head used by witnesses and counterexamples. -/
def exG : Block := ⟨1, 0, 0, 100, 131072, 5000, 0, 131072, false⟩

/-- Concrete block 1 linked to the genesis head. -/
def exB1 : Block := ⟨2, 1, 1, 110, 131072, 5000, 0, 0, false⟩

/-- Concrete block 2 linked to block 1. -/
def exB2 : Block := ⟨3, 2, 2, 120, 131072, 5000, 0, 0, false⟩

/-- Concrete block 3 linked to block 2. -/
def exB3 : Block := ⟨4, 3, 3, 130, 131072, 5000, 0, 0, false⟩

/-- Concrete chain state whose head is the genesis block. -/
def exSt : ChainState :=
  ⟨[(1, exG)], [(0, 1)], 1, 131072, exG, 1, ⟨10000, [exG]⟩, ⟨256, []⟩⟩

/-- Concrete block whose parent (hash 9) is absent from the block store. -/
def exOrphan : Block := ⟨2, 9, 1, 10, 5, 0, 0, 0, false⟩

/-- Concrete block with hash 9 sitting only in the future cache. -/
def exFutParent : Block := ⟨9, 0, 0, 0, 1, 0, 0, 1, false⟩

/-- Concrete state whose future cache holds exFutParent while the block
store does not. -/
def exStFut : ChainState :=
  ⟨[(1, exG)], [(0, 1)], 1, 131072, exG, 1, ⟨10000, []⟩, ⟨256, [exFutParent]⟩⟩

/-- MinHashFetch from eth/downloader/downloader.go: minimum amount of
hashes below which a continuing peer is considered stalling. -/
def MinHashFetch : Nat := 512

/-- maxBannedHashes from eth/downloader/downloader.go. -/
def maxBannedHashes : Nat := 4096

/-- blockSoftTTL from eth/downloader/downloader.go, in seconds. -/
def blockSoftTTLs : Nat := 3

/-- Modelled from the spec and gopkg.in set.v0: the banned set as a
duplicate-free list; Add appends when absent. -/
def bannedAdd (banned : List Hash) (h : Hash) : List Hash :=
  if h ∈ banned then banned else banned ++ [h]

/-- One pass of the eviction scan in banBlocks: Each visits entries,
skipping hard-coded bans, and the first other entry becomes evacuate;
when every entry is hard-coded, evacuate keeps its zero value and the
Remove is a no-op on a set not containing the zero hash. -/
def evictOnce (hardcoded banned : List Hash) : List Hash :=
  banned.erase ((banned.find? (fun x => !hardcoded.contains x)).getD 0)

/-- The for Size() greater than maxBannedHashes eviction loop of
banBlocks, with fuel standing in for the unbounded Go loop (running out
of fuel embeds the divergent all-hard-coded case). -/
def evictLoop (hardcoded : List Hash) : Nat → List Hash → List Hash
  | 0, banned => banned
  | fuel + 1, banned =>
    if maxBannedHashes < banned.length then
      evictLoop hardcoded fuel (evictOnce hardcoded banned)
    else banned

/-- The banned-set update at the end of a completed banBlocks call: add
the last verified block hash, then evict non-hard-coded entries until the
bound is restored. -/
def banAndEvict (hardcoded banned : List Hash) (h : Hash) : List Hash :=
  evictLoop hardcoded (bannedAdd banned h).length (bannedAdd banned h)

/-- Insertion of a block into a list sorted by ascending number, used to
model types.BlockBy(types.Number).Sort. -/
def insertByNumber (b : Block) : List Block → List Block
  | [] => [b]
  | x :: xs =>
    if b.number ≤ x.number then b :: x :: xs else x :: insertByNumber b xs

/-- Sorting a delivered batch by ascending block number, as
types.BlockBy(types.Number).Sort in banBlocks. -/
def sortByNumber : List Block → List Block
  | [] => []
  | x :: xs => insertByNumber x (sortByNumber xs)

/-- The forward walk of banBlocks over the sorted batch: advance while
each next block's parent is the current block's hash, returning the last
block still linked (blocks[index]). -/
def banWalk : Block → List Block → Block
  | cur, [] => cur
  | cur, b :: rest =>
    if b.parentHash == cur.hash then banWalk b rest else cur

/-- The banning tail of banBlocks once a batch of blocks has been
delivered by the offending peer: sort by number, require the first block
to be the banned head, walk the linked prefix, then ban its last hash and
evict down to the bound.  none embeds the error returns (no blocks, or
head block not the banned one). -/
def banBlocksDeliver (hardcoded banned : List Hash) (delivered : List Block)
    (head : Hash) : Option (List Hash) :=
  match sortByNumber delivered with
  | [] => none
  | b0 :: rest =>
    if b0.hash == head then
      some (banAndEvict hardcoded banned (banWalk b0 rest).hash)
    else
      none

/-- A downloader peer as the hash-fetch state machine sees it: an
identifier and an advertised head hash. -/
structure Peer where
  id : Nat
  head : Hash
deriving Repr, DecidableEq

/-- A pending cross check: expiry instant and the expected parent hash. -/
structure CrossCheck where
  expire : Nat
  parent : Hash
deriving Repr, DecidableEq

/-- The state fetchHashes threads through its select loop: the active
peer, the last hash (head), the attempted-peer map, the queue's pending
hash pool and delivered-block pool, and the outstanding cross checks. -/
structure FetchState where
  active : Peer
  head : Hash
  attempted : List Nat
  pending : List Hash
  blockPool : List (Hash × Block)
  checks : List (Hash × CrossCheck)
deriving Repr, DecidableEq

/-- Modelled from the spec: queue.Insert appends unknown hashes to the
pending pool in order, skipping duplicates, and returns the pool together
with the newly inserted hashes (eth/downloader/queue.go is not among the
two source files). -/
def queueInsert : List Hash → List Hash → List Hash × List Hash
  | pending, [] => (pending, [])
  | pending, h :: hs =>
    if h ∈ pending then queueInsert pending hs
    else
      let r := queueInsert (pending ++ [h]) hs
      (r.1, h :: r.2)

/-- Modelled from the spec: queue.Has is membership of the hash pool or
the delivered-block pool. -/
def FetchState.queueHas (st : FetchState) (h : Hash) : Bool :=
  st.pending.contains h || (st.blockPool.lookup h).isSome

/-- Modelled from the spec: queue.GetBlock reads the delivered-block
pool. -/
def FetchState.queueGetBlock (st : FetchState) (h : Hash) : Option Block :=
  st.blockPool.lookup h

/-- The four inputs of the fetchHashes select loop: a hash delivery, a
single-block delivery (cross-check replies), the periodic cross-check
tick, and the hash-request timeout.  Wall-clock instants ride on the
events. -/
inductive FetchEvent where
  | hashes (peerId : Nat) (hs : List Hash) (now : Nat)
  | blocks (peerId : Nat) (bs : List Block) (now : Nat)
  | crossTick (now : Nat)
  | timeout
deriving Repr, DecidableEq

/-- The error returns of fetchHashes. -/
inductive FetchErr where
  | emptyHashSet
  | invalidChain
  | badPeer
  | stallingPeer
  | timeout
  | crossCheckFailed
deriving Repr, DecidableEq

/-- The outcome of one iteration of the fetchHashes select loop.
panicked embeds an out-of-range indexing of the inserts slice during
cross-check selection (a Go runtime panic). -/
inductive StepResult where
  | continue (st : FetchState)
  | finished (st : FetchState) (offset : Nat)
  | failed (e : FetchErr)
  | panicked
deriving Repr, DecidableEq

/-- The hash-delivery branch of fetchHashes: reject foreign senders, fail
on an empty set, fail the chain when a banned hash appears, truncate at
the first known hash (own block or queued), insert the rest, detect stale
and stalling peers, and either register a random cross check and continue
from the last hash or finish and compute the queue offset.  pick is the
rand.Intn oracle. -/
def onHashes (hasBlock : Hash → Bool) (getBlock : Hash → Option Block)
    (banned : List Hash) (pick : Nat → Nat) (st : FetchState) (peerId : Nat)
    (hs : List Hash) (now : Nat) : StepResult :=
  if peerId ≠ st.active.id then StepResult.continue st
  else if hs.isEmpty then StepResult.failed FetchErr.emptyHashSet
  else if hs.any (fun h => h ∈ banned) then StepResult.failed FetchErr.invalidChain
  else
    match hs.findIdx? (fun h => hasBlock h || (st.queueGetBlock h).isSome) with
    | some k =>
      let ins := queueInsert st.pending (hs.take k)
      let headNew := hs.getD k 0
      let offset := match getBlock headNew with
        | some b => b.number + 1
        | none => 0
      StepResult.finished { st with pending := ins.1, head := headNew } offset
    | none =>
      let headNew := hs.getLastD 0
      let ins := queueInsert st.pending hs
      if ins.2.isEmpty then StepResult.failed FetchErr.badPeer
      else if ins.2.length < MinHashFetch then
        StepResult.failed FetchErr.stallingPeer
      else
        let cross := pick (ins.2.length - 1)
        match ins.2.get? cross, ins.2.get? (cross + 1) with
        | some origin, some parent =>
          StepResult.continue { st with
            pending := ins.1
            head := headNew
            checks := (origin, CrossCheck.mk (now + blockSoftTTLs) parent)
              :: st.checks }
        | _, _ => StepResult.panicked

/-- The single-block delivery branch of fetchHashes: only packs of
exactly one block from the active peer are inspected; a pack matching a
pending cross check must carry the expected parent hash. -/
def onBlocks (st : FetchState) (peerId : Nat) (bs : List Block) : StepResult :=
  if peerId ≠ st.active.id ∨ bs.length ≠ 1 then StepResult.continue st
  else
    match bs.head? with
    | none => StepResult.continue st
    | some b =>
      match st.checks.lookup b.hash with
      | none => StepResult.continue st
      | some chk =>
        if b.parentHash ≠ chk.parent then StepResult.failed FetchErr.crossCheckFailed
        else StepResult.continue { st with
          checks := st.checks.filter (fun kv => kv.1 ≠ b.hash) }

/-- The cross-check tick branch of fetchHashes: any pending check past
its expiry fails the hash chain. -/
def onCrossTick (st : FetchState) (now : Nat) : StepResult :=
  if st.checks.any (fun kv => kv.2.expire < now) then
    StepResult.failed FetchErr.crossCheckFailed
  else
    StepResult.continue st

/-- The timeout branch of fetchHashes: look for a peer whose advertised
head is in the queue and that is not recorded as attempted; give up with
ErrTimeout when none exists or when head is still the zero hash,
otherwise make it the active peer (the attempted map is not updated). -/
def onTimeout (peers : List Peer) (st : FetchState) : StepResult :=
  match peers.find? (fun q => st.queueHas q.head && !st.attempted.contains q.id) with
  | none => StepResult.failed FetchErr.timeout
  | some q =>
    if st.head = 0 then StepResult.failed FetchErr.timeout
    else StepResult.continue { st with active := q }

/-- One iteration of the fetchHashes select loop. -/
def fetchStep (hasBlock : Hash → Bool) (getBlock : Hash → Option Block)
    (banned : List Hash) (pick : Nat → Nat) (peers : List Peer)
    (st : FetchState) : FetchEvent → StepResult
  | FetchEvent.hashes peerId hs now =>
    onHashes hasBlock getBlock banned pick st peerId hs now
  | FetchEvent.blocks peerId bs _ => onBlocks st peerId bs
  | FetchEvent.crossTick now => onCrossTick st now
  | FetchEvent.timeout => onTimeout peers st

/-- The aggregate outcome of running the fetchHashes loop over a sequence
of events. -/
inductive RunOutcome where
  | running
  | finished (offset : Nat)
  | failed (e : FetchErr)
  | panicked
deriving Repr, DecidableEq

/-- Driving the fetchHashes loop over an event sequence, stopping at the
first terminal step. -/
def fetchRun (hasBlock : Hash → Bool) (getBlock : Hash → Option Block)
    (banned : List Hash) (pick : Nat → Nat) (peers : List Peer) :
    List FetchEvent → FetchState → RunOutcome × FetchState
  | [], st => (RunOutcome.running, st)
  | e :: es, st =>
    match fetchStep hasBlock getBlock banned pick peers st e with
    | StepResult.continue st2 => fetchRun hasBlock getBlock banned pick peers es st2
    | StepResult.finished st2 off => (RunOutcome.finished off, st2)
    | StepResult.failed err => (RunOutcome.failed err, st)
    | StepResult.panicked => (RunOutcome.panicked, st)

/-- The fetchHashes preamble: seed the queue with the requested head
hash, request hashes from the starting peer, mark it attempted, with head
initially the zero hash. -/
def fetchInit (p : Peer) (h : Hash) : FetchState :=
  { active := p
    head := 0
    attempted := [p.id]
    pending := (queueInsert [] [h]).1
    blockPool := []
    checks := [] }

/-- Modelled from the spec: New injects all the known hard-coded bad
hashes into the fresh banned set. -/
def newBanned (hardcoded : List Hash) : List Hash := hardcoded

/-- The state carried onward by a step outcome (the default is returned
for terminal failures, whose state is discarded). -/
def StepResult.stateD : StepResult → FetchState → FetchState
  | StepResult.continue s, _ => s
  | StepResult.finished s _, _ => s
  | _, dflt => dflt

/-- Concrete initial hash-fetch peer used by downloader witnesses. -/
def exPeerA : Peer := ⟨1, 900⟩

/-- Concrete second peer whose advertised head lies inside the delivered
hash batch. -/
def exPeerB : Peer := ⟨2, 150⟩

/-- Concrete peer set for the downloader runs. -/
def exPeers : List Peer := [exPeerA, exPeerB]

/-- Concrete batch of 512 fresh hashes delivered by the initial peer. -/
def exHashes : List Hash := (List.range 512).map (fun k => 100 + k)

/-- Concrete hash-delivery event from the initial peer. -/
def exEvDeliver : FetchEvent := FetchEvent.hashes 1 exHashes 50

/-- The fetch state after the initial peer delivers the 512 fresh hashes:
head is the last delivered hash, the pool holds the seed hash plus the
batch, and one cross check is registered. -/
def exSt1 : FetchState :=
  ⟨exPeerA, 611, [1], 900 :: exHashes, [], [(100, ⟨53, 101⟩)]⟩

/-- The fetch state after the first timeout switched the active peer to
peer B. -/
def exSt2 : FetchState :=
  ⟨exPeerB, 611, [1], 900 :: exHashes, [], [(100, ⟨53, 101⟩)]⟩

/-- The parent walk of GetBlockHashesFromHash: fuel is the remaining loop
bound (i < max); each step follows the parent pointer, stops when the
lookup fails, appends the found block's hash, and stops after a block
with number zero (genesis). -/
def hashWalk (st : ChainState) : Block → Nat → List Hash
  | _, 0 => []
  | b, fuel + 1 =>
    match st.getBlock b.parentHash with
    | none => []
    | some p => p.hash :: (if p.number = 0 then [] else hashWalk st p fuel)

/-- GetBlockHashesFromHash from core/chain_manager.go: resolve the start
block and walk its ancestors, collecting up to max hashes. -/
def getBlockHashesFromHash (st : ChainState) (h : Hash) (max : Nat) : List Hash :=
  match st.getBlock h with
  | none => []
  | some b => hashWalk st b max

/-- GetBlockByNumber from core/chain_manager.go: resolve the number index
to a hash and then the hash to a block. -/
def ChainState.getBlockByNumber (st : ChainState) (n : Nat) : Option Block :=
  match st.numDb.lookup n with
  | none => none
  | some h => st.getBlock h

/-- Concrete canonical genesis for the C9 witness. -/
def exC0 : Block := ⟨21, 0, 0, 0, 1, 0, 0, 1, false⟩

/-- Concrete canonical block number 1 for the C9 witness. -/
def exC1 : Block := ⟨22, 21, 1, 5, 1, 0, 0, 2, false⟩

/-- Concrete canonical head (number 2) for the C9 witness. -/
def exC2 : Block := ⟨23, 22, 2, 9, 1, 0, 0, 3, false⟩

/-- Concrete chain state holding the three-block canonical chain. -/
def exCanonSt : ChainState :=
  ⟨[(21, exC0), (22, exC1), (23, exC2)], [(0, 21), (1, 22), (2, 23)], 23, 3,
    exC2, 23, ⟨10000, []⟩, ⟨256, []⟩⟩

/-- Replacing a value by a floor m whenever it is below m is the max. -/
theorem clamp_eq_max (m x : Int) : (if x < m then m else x) = max m x := by
  by_cases h : x < m
  · simp [h, max_eq_left (le_of_lt h)]
  · simp [h, max_eq_right (le_of_not_lt h)]

/-- C6: for every block header B and parent header P the computed
difficulty is the parent difficulty adjusted by parent.difficulty over the
bound divisor, upward when the time delta is below DurationLimit and
downward otherwise, clamped up to MinimumDifficulty when it falls below
it. -/
theorem calcDifficulty_spec (b p : Block) :
    calcDifficulty b p =
      max MinimumDifficulty
        (if ((b.time : Int) - (p.time : Int)) < DurationLimit then
          p.difficulty + Int.ediv p.difficulty DifficultyBoundDivisor
        else
          p.difficulty - Int.ediv p.difficulty DifficultyBoundDivisor) := by
  unfold calcDifficulty
  rw [clamp_eq_max]

/-- C7: for every parent block P the computed gas limit is
max(P.gasLimit - decay + contrib + 1, MinGasLimit) with
decay = P.gasLimit / BoundDivisor and contrib = (P.gasUsed * 3 / 2) /
BoundDivisor (integer divisions in that order), except that a result
below GenesisGasLimit is replaced by min(GenesisGasLimit,
P.gasLimit + decay). -/
theorem calcGasLimit_spec (p : Block) :
    calcGasLimit p =
      (if max (p.gasLimit - Int.ediv p.gasLimit GasLimitBoundDivisor
            + Int.ediv (Int.ediv (p.gasUsed * 3) 2) GasLimitBoundDivisor + 1)
          MinGasLimit < GenesisGasLimit then
        min GenesisGasLimit
          (p.gasLimit + Int.ediv p.gasLimit GasLimitBoundDivisor)
      else
        max (p.gasLimit - Int.ediv p.gasLimit GasLimitBoundDivisor
            + Int.ediv (Int.ediv (p.gasUsed * 3) 2) GasLimitBoundDivisor + 1)
          MinGasLimit) := rfl

@[simp] theorem setTd_hash (b : Block) (t : Int) : (b.setTd t).hash = b.hash := rfl

@[simp] theorem setTd_parentHash (b : Block) (t : Int) :
    (b.setTd t).parentHash = b.parentHash := rfl

@[simp] theorem setTd_number (b : Block) (t : Int) : (b.setTd t).number = b.number := rfl

@[simp] theorem setTd_time (b : Block) (t : Int) : (b.setTd t).time = b.time := rfl

@[simp] theorem setTd_difficulty (b : Block) (t : Int) :
    (b.setTd t).difficulty = b.difficulty := rfl

@[simp] theorem setTd_td (b : Block) (t : Int) : (b.setTd t).td = t := rfl

@[simp] theorem insertBlock_currentBlock (st : ChainState) (b : Block) :
    (st.insertBlock b).currentBlock = b := rfl

@[simp] theorem insertBlock_td (st : ChainState) (b : Block) :
    (st.insertBlock b).td = st.td := rfl

@[simp] theorem insertBlock_blockDb (st : ChainState) (b : Block) :
    (st.insertBlock b).blockDb = st.blockDb := rfl

@[simp] theorem writeBlock_currentBlock (st : ChainState) (b : Block) :
    (st.writeBlock b).currentBlock = st.currentBlock := rfl

@[simp] theorem writeBlock_td (st : ChainState) (b : Block) :
    (st.writeBlock b).td = st.td := rfl

@[simp] theorem setTotalDifficulty_td (st : ChainState) (t : Int) :
    (st.setTotalDifficulty t).td = t := rfl

@[simp] theorem setTotalDifficulty_currentBlock (st : ChainState) (t : Int) :
    (st.setTotalDifficulty t).currentBlock = st.currentBlock := rfl

@[simp] theorem getBlock_deleteFuture (st : ChainState) (h x : Hash) :
    (st.deleteFuture h).getBlock x = st.getBlock x := rfl

@[simp] theorem deleteFuture_currentBlock (st : ChainState) (h : Hash) :
    (st.deleteFuture h).currentBlock = st.currentBlock := rfl

@[simp] theorem deleteFuture_td (st : ChainState) (h : Hash) :
    (st.deleteFuture h).td = st.td := rfl

theorem getLast?_cons_ne_none (a : α) (l : List α) :
    (a :: l).getLast? ≠ none := by
  induction l generalizing a with
  | nil => simp [List.getLast?]
  | cons x xs ih => rw [List.getLast?_cons_cons]; exact ih x

@[simp] theorem getBlock_writeBlock (st : ChainState) (b : Block) (h : Hash) :
    (st.writeBlock b).getBlock h = if h = b.hash then some b else st.getBlock h := by
  by_cases hc : h = b.hash
  · simp [ChainState.writeBlock, ChainState.getBlock, List.lookup, hc]
  · have hb : (h == b.hash) = false := beq_eq_false_iff_ne.mpr hc
    simp [ChainState.writeBlock, ChainState.getBlock, List.lookup, hb, hc]

/-- If index i is covered by the checked set or by the pending results and
all pending results are valid, the per-index nonce wait succeeds, shrinks
pending to a subset, and preserves coverage of every index. -/
theorem waitNonce_ok (chain : List Block) (i : Nat) :
    ∀ (pending : List NonceResult) (checked : List Nat),
    (∀ r ∈ pending, r.valid = true) →
    (i ∈ checked ∨ i ∈ pending.map NonceResult.i) →
    ∃ checked1 pending1,
      waitNonce chain i checked pending = some (Except.ok (checked1, pending1)) ∧
      (∀ r ∈ pending1, r ∈ pending) ∧
      (∀ k, (k ∈ checked ∨ k ∈ pending.map NonceResult.i) →
        (k ∈ checked1 ∨ k ∈ pending1.map NonceResult.i)) := by
  intro pending
  induction pending with
  | nil =>
    intro checked hvalid hcov
    have hc : i ∈ checked := by
      rcases hcov with h | h
      · exact h
      · simp at h
    refine ⟨checked, [], by simp [waitNonce, hc], ?_, ?_⟩
    · intro r hr; exact absurd hr (List.not_mem_nil r)
    · intro k hk; simpa using hk
  | cons r rest ih =>
    intro checked hvalid hcov
    by_cases hc : i ∈ checked
    · exact ⟨checked, r :: rest, by simp [waitNonce, hc], fun _ hr => hr, fun _ hk => hk⟩
    · have hrv : r.valid = true := hvalid r (List.mem_cons_self r rest)
      have hcov2 : i ∈ (r.i :: checked) ∨ i ∈ rest.map NonceResult.i := by
        rcases hcov with h | h
        · exact absurd h hc
        · rcases List.mem_map.mp h with ⟨s, hs, hsi⟩
          rcases List.mem_cons.mp hs with hs1 | hs2
          · left; subst hs1; exact hsi ▸ List.mem_cons_self s.i checked
          · right; exact List.mem_map.mpr ⟨s, hs2, hsi⟩
      rcases ih (r.i :: checked) (fun s hs => hvalid s (List.mem_cons_of_mem r hs)) hcov2
        with ⟨c1, p1, heq, hsub, hpres⟩
      refine ⟨c1, p1, ?_, ?_, ?_⟩
      · rw [waitNonce, if_neg (by simpa using hc), if_pos hrv]
        exact heq
      · intro s hs; exact List.mem_cons_of_mem r (hsub s hs)
      · intro k hk
        apply hpres
        rcases hk with h | h
        · exact Or.inl (List.mem_cons_of_mem r.i h)
        · rcases List.mem_map.mp h with ⟨s, hs, hsi⟩
          rcases List.mem_cons.mp hs with hs1 | hs2
          · left; subst hs1; exact hsi ▸ List.mem_cons_self s.i checked
          · right; exact List.mem_map.mpr ⟨s, hs2, hsi⟩

/-- Main induction for valid imports: processing a suffix of linked,
validly processing blocks from a consistent head succeeds and leaves the
last block (stamped with the accumulated total difficulty) as the head. -/
theorem insertLoop_valid_aux (bh : Hash → Bool) (proc : Block → ProcResult)
    (now : Nat) (chainAll : List Block) :
    ∀ (rest : List Block) (i : Nat) (checked : List Nat)
      (pending : List NonceResult) (st : ChainState)
      (evs : List (Nat × ChainEventKind)),
    (∀ k b b', rest.get? k = some b → rest.get? (k + 1) = some b' →
      b'.parentHash = b.hash) →
    (∀ b, rest.head? = some b → b.parentHash = st.currentBlock.hash) →
    st.getBlock st.currentBlock.hash = some st.currentBlock →
    st.td = st.currentBlock.td →
    (∀ b ∈ rest, 0 < b.difficulty) →
    (∀ b ∈ rest, bh b.hash = false) →
    (∀ b ∈ rest, ∀ t, proc (b.setTd t) = ProcResult.ok) →
    (∀ r ∈ pending, r.valid = true) →
    (∀ k, i ≤ k → k < i + rest.length →
      k ∈ checked ∨ k ∈ pending.map NonceResult.i) →
    ∃ stF evsF,
      insertLoop bh proc now false chainAll rest i checked pending st evs =
        ((0, none), stF, evsF) ∧
      stF.currentBlock =
        (rest.getLast?.map
          (fun lb => lb.setTd (st.td + (rest.map Block.difficulty).sum))).getD
          st.currentBlock ∧
      stF.td = stF.currentBlock.td := by
  intro rest
  induction rest with
  | nil =>
    intro i checked pending st evs _ _ _ htd _ _ _ _ _
    exact ⟨st, evs, by simp [insertLoop], by simp, by simpa using htd⟩
  | cons b rest ih =>
    intro i checked pending st evs hlink hhead hstore htd hdiff hbad hproc hvalid hcov
    have hcovi : i ∈ checked ∨ i ∈ pending.map NonceResult.i :=
      hcov i le_rfl (by rw [List.length_cons]; omega)
    rcases waitNonce_ok chainAll i pending checked hvalid hcovi with
      ⟨c1, p1, hwait, hsub, hpres⟩
    have hbp : b.parentHash = st.currentBlock.hash := hhead b rfl
    have hgb : st.getBlock b.parentHash = some st.currentBlock := hbp ▸ hstore
    have hbadb : bh b.hash = false := hbad b (List.mem_cons_self b rest)
    set stamped := b.setTd (calcTD b (st.getBlock b.parentHash)) with hsdef
    have hcalc : calcTD b (st.getBlock b.parentHash) = st.td + b.difficulty := by
      rw [hgb, calcTD, htd]
    have hstd : stamped.td = st.td + b.difficulty := by
      rw [hsdef, setTd_td, hcalc]
    have hpr : proc stamped = ProcResult.ok := hproc b (List.mem_cons_self b rest) _
    have hlt : st.td < stamped.td := by
      rw [hstd]
      have := hdiff b (List.mem_cons_self b rest)
      omega
    have hpeq : ¬ stamped.parentHash ≠ st.currentBlock.hash := by
      rw [hsdef]; simp [hbp]
    set st4 := (((st.setTotalDifficulty stamped.td).insertBlock
        stamped).writeBlock stamped).deleteFuture stamped.hash with hst4
    set evs2 := evs ++ [(i, ChainEventKind.chainEvent stamped.hash)] with hevs2
    have hstep : insertLoop bh proc now false chainAll (b :: rest) i checked
        pending st evs =
        insertLoop bh proc now false chainAll rest (i + 1) c1 p1 st4 evs2 := by
      rw [insertLoop]
      simp only [Bool.false_eq_true, if_false, hwait, hbadb, ← hsdef, hpr,
        if_pos hlt, if_neg hpeq, hst4, hevs2, ChainState.deleteFuture]
    have h4cur : st4.currentBlock = stamped := rfl
    have h4td : st4.td = stamped.td := rfl
    have h4get : st4.getBlock st4.currentBlock.hash = some st4.currentBlock := by
      rw [h4cur, hst4]
      simp
    rcases ih (i + 1) c1 p1 st4 evs2
      (fun k x y hx hy => hlink (k + 1) x y hx hy)
      (fun x hx => by
        have hx0 : (b :: rest).get? 0 = some b := rfl
        have hx1 : (b :: rest).get? 1 = some x := by
          rw [List.get?_cons_succ, List.get?_zero]
          exact hx
        rw [h4cur, hsdef, setTd_hash]
        exact hlink 0 b x hx0 hx1)
      h4get
      (by rw [h4td, h4cur])
      (fun x hx => hdiff x (List.mem_cons_of_mem b hx))
      (fun x hx => hbad x (List.mem_cons_of_mem b hx))
      (fun x hx => hproc x (List.mem_cons_of_mem b hx))
      (fun r hr => hvalid r (hsub r hr))
      (fun k hk1 hk2 => hpres k
        (hcov k (by omega) (by rw [List.length_cons]; omega)))
      with ⟨stF, evsF, heq, hcb, htdF⟩
    refine ⟨stF, evsF, ?_, ?_, htdF⟩
    · rw [hstep]; exact heq
    · rw [hcb]
      cases rest with
      | nil =>
        simp only [List.getLast?_singleton, List.getLast?_nil, Option.map_none,
          Option.getD_none, Option.map_some, Option.getD_some, h4cur, hsdef,
          List.map_cons, List.map_nil, List.sum_cons, List.sum_nil]
        rw [hcalc]
        norm_num
      | cons r rs =>
        have hA : st4.td + ((r :: rs).map Block.difficulty).sum
            = st.td + ((b :: r :: rs).map Block.difficulty).sum := by
          rw [h4td, hstd]
          simp only [List.map_cons, List.sum_cons]
          ring
        rw [List.getLast?_cons_cons, hA]
        cases hlast : (r :: rs).getLast? with
        | none => exact absurd hlast (getLast?_cons_ne_none r rs)
        | some lb => simp

/-- C1: for every chain of N blocks that validly extends the current head
(the first block's parent is the current head, each subsequent block's
parent is its predecessor, all nonces verify and every index is reported,
the processor succeeds on every block, no block hash is blacklisted, and
the stamped total difficulties are strictly increasing above the current
head's td because every difficulty is positive), insert_chain returns
(0, nil) and afterwards current_block is the last block of the chain
(stamped with its total difficulty) and td equals that block's td. -/
theorem insertChain_valid_import (bh : Hash → Bool) (proc : Block → ProcResult)
    (now : Nat) (nonceOrder : List NonceResult) (st : ChainState)
    (chain : List Block) (lastB : Block)
    (hne : chain.getLast? = some lastB)
    (hfirst : ∀ b, chain.head? = some b → b.parentHash = st.currentBlock.hash)
    (hlink : ∀ k b b', chain.get? k = some b → chain.get? (k + 1) = some b' →
      b'.parentHash = b.hash)
    (hstore : st.getBlock st.currentBlock.hash = some st.currentBlock)
    (htd : st.td = st.currentBlock.td)
    (hdiff : ∀ b ∈ chain, 0 < b.difficulty)
    (hbad : ∀ b ∈ chain, bh b.hash = false)
    (hproc : ∀ b ∈ chain, ∀ t, proc (b.setTd t) = ProcResult.ok)
    (hvalid : ∀ r ∈ nonceOrder, r.valid = true)
    (hcover : ∀ k, k < chain.length → k ∈ nonceOrder.map NonceResult.i) :
    ∃ stF evsF,
      insertChain bh proc now false nonceOrder st chain =
        ((0, none), stF, evsF) ∧
      stF.currentBlock = lastB.setTd (st.td + (chain.map Block.difficulty).sum) ∧
      stF.td = stF.currentBlock.td := by
  rcases insertLoop_valid_aux bh proc now chain chain 0 [] nonceOrder st []
    hlink hfirst hstore htd hdiff hbad hproc hvalid
    (fun k _ hk2 => Or.inr (hcover k (by omega)))
    with ⟨stF, evsF, heq, hcb, htdF⟩
  refine ⟨stF, evsF, heq, ?_, htdF⟩
  rw [hcb, hne]
  rfl

/-- Witness for C1: importing three linked valid blocks onto the concrete
genesis state succeeds and installs the stamped third block as head. -/
theorem insertChain_valid_import_witness :
    ∃ stF evsF,
      insertChain (fun _ => false) (fun _ => ProcResult.ok) 1000 false
          [⟨0, true⟩, ⟨1, true⟩, ⟨2, true⟩] exSt [exB1, exB2, exB3] =
        ((0, none), stF, evsF) ∧
      stF.currentBlock =
        exB3.setTd (exSt.td + (([exB1, exB2, exB3].map Block.difficulty)).sum) ∧
      stF.td = stF.currentBlock.td :=
  insertChain_valid_import (fun _ => false) (fun _ => ProcResult.ok) 1000
    [⟨0, true⟩, ⟨1, true⟩, ⟨2, true⟩] exSt [exB1, exB2, exB3] exB3
    (by decide)
    (fun b hb => by
      have hb1 : exB1 = b := by simpa using hb
      subst hb1; decide)
    (fun k b b' hb hb' => by
      match k with
      | 0 =>
        have h1 : exB1 = b := by simpa using hb
        have h2 : exB2 = b' := by simpa using hb'
        subst h1; subst h2; decide
      | 1 =>
        have h1 : exB2 = b := by simpa using hb
        have h2 : exB3 = b' := by simpa using hb'
        subst h1; subst h2; decide
      | 2 => simp at hb'
      | (n + 3) => simp at hb)
    (by decide)
    (by decide)
    (by decide)
    (by decide)
    (fun b _ t => rfl)
    (by decide)
    (by decide)

/-- C5: when the processor returns FutureBlock for the block at index i of
an insert_chain batch (its nonce verified, its hash not blacklisted): if
the block's timestamp exceeds the wall clock plus 30 seconds the call
returns (i, error) with the state unchanged; otherwise the block is marked
queued, pushed into the future-block cache, and processing continues with
the next block without changing the head or the total difficulty. -/
theorem insertChain_futureBlock_step (bh : Hash → Bool)
    (proc : Block → ProcResult) (now : Nat) (chainAll : List Block)
    (block : Block) (rest : List Block) (i : Nat) (checked c1 : List Nat)
    (pending p1 : List NonceResult) (st : ChainState)
    (evs : List (Nat × ChainEventKind))
    (hwait : waitNonce chainAll i checked pending = some (Except.ok (c1, p1)))
    (hbad : bh block.hash = false)
    (hfut : proc (block.setTd (calcTD block (st.getBlock block.parentHash))) =
      ProcResult.futureBlock) :
    (now + maxTimeFutureBlocks < block.time →
      insertLoop bh proc now false chainAll (block :: rest) i checked pending
          st evs =
        ((i, some InsertErr.futureErr), st, evs)) ∧
    (¬ now + maxTimeFutureBlocks < block.time →
      insertLoop bh proc now false chainAll (block :: rest) i checked pending
          st evs =
        insertLoop bh proc now false chainAll rest (i + 1) c1 p1
          (st.pushFuture
            ((block.setTd (calcTD block (st.getBlock block.parentHash))).setQueued))
          evs ∧
      (st.pushFuture
        ((block.setTd (calcTD block (st.getBlock block.parentHash))).setQueued)).currentBlock
        = st.currentBlock ∧
      (st.pushFuture
        ((block.setTd (calcTD block (st.getBlock block.parentHash))).setQueued)).td
        = st.td) := by
  constructor
  · intro ht
    rw [insertLoop]
    simp only [Bool.false_eq_true, if_false, hwait, hbad, hfut, setTd_time,
      if_pos ht]
  · intro ht
    refine ⟨?_, rfl, rfl⟩
    rw [insertLoop]
    simp only [Bool.false_eq_true, if_false, hwait, hbad, hfut, setTd_time,
      if_neg ht]

/-- Witness for C5: with the wall clock at 1000, a block with timestamp
1010 is parked in the future cache (processing continues), and the theorem
also covers the over-limit branch. -/
theorem insertChain_futureBlock_step_witness :
    (1000 + maxTimeFutureBlocks < exB1.time →
      insertLoop (fun _ => false) (fun _ => ProcResult.futureBlock) 1000 false
          [exB1] [exB1] 0 [] [⟨0, true⟩] exSt [] =
        ((0, some InsertErr.futureErr), exSt, [])) ∧
    (¬ 1000 + maxTimeFutureBlocks < exB1.time →
      insertLoop (fun _ => false) (fun _ => ProcResult.futureBlock) 1000 false
          [exB1] [exB1] 0 [] [⟨0, true⟩] exSt [] =
        insertLoop (fun _ => false) (fun _ => ProcResult.futureBlock) 1000 false
          [exB1] [] 1 [0] []
          (exSt.pushFuture
            ((exB1.setTd (calcTD exB1 (exSt.getBlock exB1.parentHash))).setQueued))
          [] ∧
      (exSt.pushFuture
        ((exB1.setTd (calcTD exB1 (exSt.getBlock exB1.parentHash))).setQueued)).currentBlock
        = exSt.currentBlock ∧
      (exSt.pushFuture
        ((exB1.setTd (calcTD exB1 (exSt.getBlock exB1.parentHash))).setQueued)).td
        = exSt.td) :=
  insertChain_futureBlock_step (fun _ => false) (fun _ => ProcResult.futureBlock)
    1000 [exB1] exB1 [] 0 [] [0] [⟨0, true⟩] [] exSt [] rfl rfl rfl

/-- Counterexample to C2: insert_chain processes and stamps a block whose
parent is not found in the store at stamping time; the stamped total
difficulty is the block's own difficulty (CalcTD's nil-parent branch) and
no stored parent exists whose td could satisfy the claimed equation. -/
theorem insertChain_td_missing_parent_counterexample :
    (insertChain (fun _ => false) (fun _ => ProcResult.parentMissing) 0 false
        [⟨0, true⟩] exStFut [exOrphan]).1 = (0, none) ∧
    exStFut.getBlock exOrphan.parentHash = none ∧
    (insertChain (fun _ => false) (fun _ => ProcResult.parentMissing) 0 false
        [⟨0, true⟩] exStFut [exOrphan]).2.1.futureBlocks.blocks.getLast?
      = some ((exOrphan.setTd exOrphan.difficulty).setQueued) ∧
    ¬ ∃ p : Block, exStFut.getBlock exOrphan.parentHash = some p := by
  refine ⟨by decide, by decide, by decide, ?_⟩
  rintro ⟨p, hp⟩
  have h0 : exStFut.getBlock exOrphan.parentHash = none := by decide
  rw [h0] at hp
  exact Option.noConfusion hp

/-- C2 amended: the td stamped on a processed block equals the stored
parent's td plus the block's difficulty when the parent lookup succeeds,
and the block's own difficulty when the parent is not found; the block
written to the store carries exactly this stamp (shown for a block
extending the current head, where no reorganisation runs). -/
theorem insertLoop_td_stamp (bh : Hash → Bool) (proc : Block → ProcResult)
    (now : Nat) (chainAll : List Block) (block : Block) (rest : List Block)
    (i : Nat) (checked c1 : List Nat) (pending p1 : List NonceResult)
    (st : ChainState) (evs : List (Nat × ChainEventKind))
    (hwait : waitNonce chainAll i checked pending = some (Except.ok (c1, p1)))
    (hbad : bh block.hash = false)
    (hok : proc (block.setTd (calcTD block (st.getBlock block.parentHash))) =
      ProcResult.ok)
    (hpar : block.parentHash = st.currentBlock.hash) :
    ∃ st4 evs2,
      insertLoop bh proc now false chainAll (block :: rest) i checked pending
          st evs =
        insertLoop bh proc now false chainAll rest (i + 1) c1 p1 st4 evs2 ∧
      st4.getBlock block.hash =
        some (block.setTd (calcTD block (st.getBlock block.parentHash))) ∧
      (∀ p, st.getBlock block.parentHash = some p →
        calcTD block (st.getBlock block.parentHash) = p.td + block.difficulty) ∧
      (st.getBlock block.parentHash = none →
        calcTD block (st.getBlock block.parentHash) = block.difficulty) := by
  have hpeq : ¬ (block.setTd (calcTD block (st.getBlock block.parentHash))).parentHash
      ≠ st.currentBlock.hash := by
    simp [hpar]
  by_cases hlt :
    st.td < (block.setTd (calcTD block (st.getBlock block.parentHash))).td
  · refine ⟨(((st.setTotalDifficulty
        (block.setTd (calcTD block (st.getBlock block.parentHash))).td).insertBlock
        (block.setTd (calcTD block (st.getBlock block.parentHash)))).writeBlock
        (block.setTd (calcTD block (st.getBlock block.parentHash)))).deleteFuture
        (block.setTd (calcTD block (st.getBlock block.parentHash))).hash,
      evs ++ [(i, ChainEventKind.chainEvent
        (block.setTd (calcTD block (st.getBlock block.parentHash))).hash)],
      ?_, ?_, ?_, ?_⟩
    · rw [insertLoop]
      simp only [Bool.false_eq_true, if_false, hwait, hbad, hok, if_pos hlt,
        if_neg hpeq, ChainState.deleteFuture]
    · simp
    · intro p hp; rw [hp]; rfl
    · intro hp; rw [hp]; rfl
  · refine ⟨(st.writeBlock
        (block.setTd (calcTD block (st.getBlock block.parentHash)))).deleteFuture
        (block.setTd (calcTD block (st.getBlock block.parentHash))).hash,
      evs ++ [(i, ChainEventKind.chainSideEvent
        (block.setTd (calcTD block (st.getBlock block.parentHash))).hash)],
      ?_, ?_, ?_, ?_⟩
    · rw [insertLoop]
      simp only [Bool.false_eq_true, if_false, hwait, hbad, hok, if_neg hlt,
        ChainState.deleteFuture]
    · simp
    · intro p hp; rw [hp]; rfl
    · intro hp; rw [hp]; rfl

/-- Witness for the amended C2: stamping block 1 onto the concrete genesis
state finds the stored genesis parent and stamps its td plus the block
difficulty. -/
theorem insertLoop_td_stamp_witness :
    ∃ st4 evs2,
      insertLoop (fun _ => false) (fun _ => ProcResult.ok) 1000 false
          [exB1] [exB1] 0 [] [⟨0, true⟩] exSt [] =
        insertLoop (fun _ => false) (fun _ => ProcResult.ok) 1000 false
          [exB1] [] 1 [0] [] st4 evs2 ∧
      st4.getBlock exB1.hash =
        some (exB1.setTd (calcTD exB1 (exSt.getBlock exB1.parentHash))) ∧
      (∀ p, exSt.getBlock exB1.parentHash = some p →
        calcTD exB1 (exSt.getBlock exB1.parentHash) = p.td + exB1.difficulty) ∧
      (exSt.getBlock exB1.parentHash = none →
        calcTD exB1 (exSt.getBlock exB1.parentHash) = exB1.difficulty) :=
  insertLoop_td_stamp (fun _ => false) (fun _ => ProcResult.ok) 1000
    [exB1] exB1 [] 0 [] [0] [⟨0, true⟩] [] exSt [] rfl rfl rfl (by decide)

/-- Counterexample to C3: importing [B1, B2, B3] where exactly B2's nonce
fails does return (1, NonceError), but when the failing result is the
first one delivered the call returns before processing B1, so the head is
still the pre-import head and not B1 — the head is not independent of the
order in which verification results arrive. -/
theorem insertChain_nonce_order_counterexample :
    (insertChain (fun _ => false) (fun _ => ProcResult.ok) 1000 false
        [⟨1, false⟩, ⟨0, true⟩, ⟨2, true⟩] exSt [exB1, exB2, exB3]).1
      = (1, some (InsertErr.nonceErr exB2.hash exB2.number)) ∧
    (insertChain (fun _ => false) (fun _ => ProcResult.ok) 1000 false
        [⟨1, false⟩, ⟨0, true⟩, ⟨2, true⟩] exSt
        [exB1, exB2, exB3]).2.1.currentBlock.hash ≠ exB1.hash := by
  decide

/-- C3 amended: the loop blocks per index and returns (j, NonceError)
where j is the index of the invalid result it consumed; for a batch
[B1, B2, B3] where exactly B2's nonce fails, the return value is
(1, NonceError) and the head afterwards is B1 exactly when B1's result was
delivered before the failing result; when the failing result arrives
first, the state is unchanged. -/
theorem insertChain_nonce_fail_order (bh : Hash → Bool)
    (proc : Block → ProcResult) (now : Nat) (st : ChainState)
    (b1 b2 b3 : Block) (restOrder : List NonceResult)
    (hbad1 : bh b1.hash = false)
    (hpar1 : b1.parentHash = st.currentBlock.hash)
    (hstore : st.getBlock st.currentBlock.hash = some st.currentBlock)
    (htd : st.td = st.currentBlock.td)
    (hd1 : 0 < b1.difficulty)
    (hproc1 : ∀ t, proc (b1.setTd t) = ProcResult.ok) :
    ((insertChain bh proc now false [⟨0, true⟩, ⟨1, false⟩] st [b1, b2, b3]).1 =
        (1, some (InsertErr.nonceErr b2.hash b2.number)) ∧
      (insertChain bh proc now false [⟨0, true⟩, ⟨1, false⟩] st
        [b1, b2, b3]).2.1.currentBlock.hash = b1.hash) ∧
    ((insertChain bh proc now false (⟨1, false⟩ :: restOrder) st
        [b1, b2, b3]).1 =
        (1, some (InsertErr.nonceErr b2.hash b2.number)) ∧
      (insertChain bh proc now false (⟨1, false⟩ :: restOrder) st
        [b1, b2, b3]).2.1 = st) := by
  have hgb : st.getBlock b1.parentHash = some st.currentBlock := hpar1 ▸ hstore
  set stamped := b1.setTd (calcTD b1 (st.getBlock b1.parentHash)) with hsdef
  have hstd : stamped.td = st.td + b1.difficulty := by
    rw [hsdef, setTd_td, hgb, calcTD, htd]
  have hpr : proc stamped = ProcResult.ok := hproc1 _
  have hlt : st.td < stamped.td := by rw [hstd]; omega
  have hpeq : ¬ stamped.parentHash ≠ st.currentBlock.hash := by
    rw [hsdef]; simp [hpar1]
  constructor
  · have hw1 : waitNonce [b1, b2, b3] 0 [] [⟨0, true⟩, ⟨1, false⟩] =
        some (Except.ok ([0], [⟨1, false⟩])) := rfl
    have hw2 : waitNonce [b1, b2, b3] 1 [0] [⟨1, false⟩] =
        some (Except.error (1, InsertErr.nonceErr b2.hash b2.number)) := rfl
    have hstep : insertChain bh proc now false [⟨0, true⟩, ⟨1, false⟩] st
        [b1, b2, b3] =
        insertLoop bh proc now false [b1, b2, b3] [b2, b3] 1 [0] [⟨1, false⟩]
          ((((st.setTotalDifficulty stamped.td).insertBlock stamped).writeBlock
            stamped).deleteFuture stamped.hash)
          [(0, ChainEventKind.chainEvent stamped.hash)] := by
      rw [insertChain, insertLoop]
      simp only [Bool.false_eq_true, if_false, hw1, hbad1, ← hsdef, hpr,
        if_pos hlt, if_neg hpeq, ChainState.deleteFuture, List.nil_append]
    have hstep2 : insertLoop bh proc now false [b1, b2, b3] [b2, b3] 1 [0]
        [⟨1, false⟩]
        ((((st.setTotalDifficulty stamped.td).insertBlock stamped).writeBlock
          stamped).deleteFuture stamped.hash)
        [(0, ChainEventKind.chainEvent stamped.hash)] =
        ((1, some (InsertErr.nonceErr b2.hash b2.number)),
          (((st.setTotalDifficulty stamped.td).insertBlock stamped).writeBlock
            stamped).deleteFuture stamped.hash,
          [(0, ChainEventKind.chainEvent stamped.hash)]) := by
      rw [insertLoop]
      simp only [Bool.false_eq_true, if_false, hw2]
    rw [hstep, hstep2]
    exact ⟨rfl, by rw [hsdef]; rfl⟩
  · have hw0 : waitNonce [b1, b2, b3] 0 [] (⟨1, false⟩ :: restOrder) =
        some (Except.error (1, InsertErr.nonceErr b2.hash b2.number)) := rfl
    have hstep : insertChain bh proc now false (⟨1, false⟩ :: restOrder) st
        [b1, b2, b3] =
        ((1, some (InsertErr.nonceErr b2.hash b2.number)), st, []) := by
      rw [insertChain, insertLoop]
      simp only [Bool.false_eq_true, if_false, hw0]
    rw [hstep]
    exact ⟨rfl, rfl⟩

/-- Witness for the amended C3: with the concrete genesis state and blocks
1, 2, 3, both delivery orders return (1, NonceError); the head is block 1
in the first and the untouched genesis state in the second. -/
theorem insertChain_nonce_fail_order_witness :
    ((insertChain (fun _ => false) (fun _ => ProcResult.ok) 1000 false
        [⟨0, true⟩, ⟨1, false⟩] exSt [exB1, exB2, exB3]).1 =
        (1, some (InsertErr.nonceErr exB2.hash exB2.number)) ∧
      (insertChain (fun _ => false) (fun _ => ProcResult.ok) 1000 false
        [⟨0, true⟩, ⟨1, false⟩] exSt
        [exB1, exB2, exB3]).2.1.currentBlock.hash = exB1.hash) ∧
    ((insertChain (fun _ => false) (fun _ => ProcResult.ok) 1000 false
        (⟨1, false⟩ :: [⟨0, true⟩, ⟨2, true⟩]) exSt [exB1, exB2, exB3]).1 =
        (1, some (InsertErr.nonceErr exB2.hash exB2.number)) ∧
      (insertChain (fun _ => false) (fun _ => ProcResult.ok) 1000 false
        (⟨1, false⟩ :: [⟨0, true⟩, ⟨2, true⟩]) exSt
        [exB1, exB2, exB3]).2.1 = exSt) :=
  insertChain_nonce_fail_order (fun _ => false) (fun _ => ProcResult.ok) 1000
    exSt exB1 exB2 exB3 [⟨0, true⟩, ⟨2, true⟩] rfl (by decide) (by decide)
    (by decide) (by decide) (fun _ => rfl)

/-- C10: the cross-check selection of fetchHashes never indexes out of
range: a cross check is only registered after the stalling check has
ensured at least MinHashFetch = 512 newly inserted hashes, so the random
index over [0, len(inserts)-1) has a positive range and both
inserts[cross] and inserts[cross+1] exist — no iteration of the loop can
panic, for any event. -/
theorem fetchStep_no_panic (hasBlock : Hash → Bool)
    (getBlock : Hash → Option Block) (banned : List Hash) (pick : Nat → Nat)
    (peers : List Peer) (st : FetchState) (ev : FetchEvent)
    (hrand : ∀ n, 0 < n → pick n < n) :
    fetchStep hasBlock getBlock banned pick peers st ev ≠ StepResult.panicked := by
  cases ev with
  | hashes pid hs now =>
    intro hpan
    simp only [fetchStep, onHashes] at hpan
    split_ifs at hpan with h1 h2 h3 h4 h5
    all_goals try exact StepResult.noConfusion hpan
    all_goals
      rcases hidx : hs.findIdx? (fun h => hasBlock h || (st.queueGetBlock h).isSome)
        with _ | k <;> rw [hidx] at hpan
    all_goals try exact StepResult.noConfusion hpan
    -- only the cross-check region remains
    all_goals
      set ins2 := (queueInsert st.pending hs).2 with hins2
    all_goals
      have h512 : MinHashFetch ≤ ins2.length := le_of_not_lt (by assumption)
    all_goals
      have hpos : 0 < ins2.length - 1 := by
        have hm : (512 : Nat) ≤ ins2.length := h512
        omega
    all_goals
      have hcross : pick (ins2.length - 1) < ins2.length - 1 :=
        hrand (ins2.length - 1) hpos
    all_goals
      rcases hgo : ins2.get? (pick (ins2.length - 1)) with _ | origin
    all_goals try (rw [List.get?_eq_none] at hgo; omega)
    all_goals
      rcases hgp : ins2.get? (pick (ins2.length - 1) + 1) with _ | parent
    all_goals try (rw [List.get?_eq_none] at hgp; omega)
    all_goals rw [hgo, hgp] at hpan
    all_goals exact StepResult.noConfusion hpan
  | blocks pid bs now =>
    intro hpan
    simp only [fetchStep, onBlocks] at hpan
    split_ifs at hpan
    all_goals try exact StepResult.noConfusion hpan
    all_goals
      rcases hh : bs.head? with _ | b <;> rw [hh] at hpan <;> dsimp only at hpan
    all_goals try exact StepResult.noConfusion hpan
    all_goals
      rcases hchk : st.checks.lookup b.hash with _ | chk <;> rw [hchk] at hpan <;>
        dsimp only at hpan
    all_goals try exact StepResult.noConfusion hpan
    all_goals split_ifs at hpan <;> exact StepResult.noConfusion hpan
  | crossTick now =>
    intro hpan
    simp only [fetchStep, onCrossTick] at hpan
    split_ifs at hpan <;> exact StepResult.noConfusion hpan
  | timeout =>
    intro hpan
    simp only [fetchStep, onTimeout] at hpan
    rcases hq : peers.find? (fun q => st.queueHas q.head &&
        !st.attempted.contains q.id) with _ | q
    · rw [hq] at hpan; exact StepResult.noConfusion hpan
    · rw [hq] at hpan
      split_ifs at hpan <;> exact StepResult.noConfusion hpan

/-- Witness for C10: a concrete hash-delivery event with 512 fresh hashes
steps without a panic under the identically-zero random oracle. -/
theorem fetchStep_no_panic_witness :
    fetchStep (fun _ => false) (fun _ => none) [] (fun _ => 0) []
        (fetchInit ⟨1, 900⟩ 900)
        (FetchEvent.hashes 1 ((List.range 512).map (fun k => 100 + k)) 50) ≠
      StepResult.panicked :=
  fetchStep_no_panic (fun _ => false) (fun _ => none) [] (fun _ => 0) []
    (fetchInit ⟨1, 900⟩ 900)
    (FetchEvent.hashes 1 ((List.range 512).map (fun k => 100 + k)) 50)
    (fun _ hn => hn)

theorem nodup_subset_length_le (l h : List Hash) (hn : l.Nodup) (hs : l ⊆ h) :
    l.length ≤ h.length := by
  have h1 : l.toFinset.card = l.length := List.toFinset_card_of_nodup hn
  have h2 : l.toFinset ⊆ h.toFinset := by
    intro x hx
    rw [List.mem_toFinset] at hx ⊢
    exact hs hx
  calc l.length = l.toFinset.card := h1.symm
    _ ≤ h.toFinset.card := Finset.card_le_card h2
    _ ≤ h.length := List.toFinset_card_le h

theorem exists_unhard (hardcoded l : List Hash) (hn : l.Nodup)
    (hlen : hardcoded.length < l.length) :
    ∃ x, l.find? (fun x => !hardcoded.contains x) = some x ∧ x ∈ l ∧
      hardcoded.contains x = false := by
  rcases hf : l.find? (fun x => !hardcoded.contains x) with _ | x
  · exfalso
    have hsub : l ⊆ hardcoded := by
      intro x hx
      have hpx := List.find?_eq_none.mp hf x hx
      simpa using hpx
    exact absurd (nodup_subset_length_le l hardcoded hn hsub) (by omega)
  · refine ⟨x, rfl, List.mem_of_find?_eq_some hf, ?_⟩
    have hpx := List.find?_some hf
    simpa using hpx

theorem evictOnce_spec (hardcoded l : List Hash) (hn : l.Nodup)
    (hlen : hardcoded.length < l.length) :
    (evictOnce hardcoded l).length = l.length - 1 ∧
    (∀ y ∈ hardcoded, y ∈ l → y ∈ evictOnce hardcoded l) := by
  rcases exists_unhard hardcoded l hn hlen with ⟨x, hf, hxl, hxh⟩
  rw [evictOnce, hf]
  constructor
  · simpa using List.length_erase_of_mem hxl
  · intro y hyh hyl
    have hne : y ≠ x := by
      intro he
      subst he
      have : hardcoded.contains y = true := by
        simpa using hyh
      rw [this] at hxh
      exact Bool.noConfusion hxh
    simpa using (List.mem_erase_of_ne hne).mpr hyl

theorem evictLoop_of_le (hardcoded : List Hash) (fuel : Nat) (l : List Hash)
    (hl : l.length ≤ maxBannedHashes) : evictLoop hardcoded fuel l = l := by
  cases fuel with
  | zero => rfl
  | succ n =>
    rw [evictLoop, if_neg (not_lt.mpr hl)]

theorem banAndEvict_spec (hardcoded banned : List Hash) (h : Hash)
    (hn : banned.Nodup)
    (hsub : ∀ x ∈ hardcoded, x ∈ banned)
    (hlen : banned.length ≤ maxBannedHashes)
    (hhard : hardcoded.length ≤ maxBannedHashes) :
    (∀ x ∈ hardcoded, x ∈ banAndEvict hardcoded banned h) ∧
    (banAndEvict hardcoded banned h).length ≤ maxBannedHashes := by
  rw [banAndEvict, bannedAdd]
  by_cases hmem : h ∈ banned
  · rw [if_pos hmem, evictLoop_of_le hardcoded banned.length banned hlen]
    exact ⟨hsub, hlen⟩
  · rw [if_neg hmem]
    have hn2 : (banned ++ [h]).Nodup := by
      simp [List.nodup_append, hn, hmem]
    have hlen2 : (banned ++ [h]).length = banned.length + 1 := by simp
    by_cases hle : banned.length + 1 ≤ maxBannedHashes
    · rw [evictLoop_of_le hardcoded _ _ (by rw [hlen2]; exact hle)]
      exact ⟨fun x hx => List.mem_append_left _ (hsub x hx),
        by rw [hlen2]; exact hle⟩
    · have hlt : maxBannedHashes < (banned ++ [h]).length := by
        rw [hlen2]; omega
      have hhard2 : hardcoded.length < (banned ++ [h]).length := by
        rw [hlen2]; omega
      obtain ⟨he1, he2⟩ := evictOnce_spec hardcoded (banned ++ [h]) hn2 hhard2
      have hONlen : (evictOnce hardcoded (banned ++ [h])).length ≤
          maxBannedHashes := by
        rw [he1, hlen2]; omega
      rw [hlen2, evictLoop, if_pos hlt,
        evictLoop_of_le hardcoded banned.length _ hONlen]
      exact ⟨fun x hx => he2 x hx (List.mem_append_left _ (hsub x hx)), hONlen⟩

/-- C8: the banned set starts as the hard-coded core bad hashes; after
every completed ban_blocks call it still contains every hard-coded bad
hash and has at most maxBannedHashes = 4096 entries: when the new ban
pushes the set over the limit, only non-hard-coded entries are evicted
until the bound is restored (hypotheses: the set is duplicate-free,
currently within the bound, contains the hard-coded hashes, and there are
at most maxBannedHashes hard-coded hashes). -/
theorem banBlocks_banned_invariant (hardcoded banned banned2 : List Hash)
    (delivered : List Block) (head : Hash)
    (hn : banned.Nodup)
    (hsub : ∀ x ∈ hardcoded, x ∈ banned)
    (hlen : banned.length ≤ maxBannedHashes)
    (hhard : hardcoded.length ≤ maxBannedHashes)
    (hret : banBlocksDeliver hardcoded banned delivered head = some banned2) :
    (∀ x ∈ hardcoded, x ∈ newBanned hardcoded) ∧
    (∀ x ∈ hardcoded, x ∈ banned2) ∧
    banned2.length ≤ maxBannedHashes := by
  refine ⟨fun x hx => hx, ?_⟩
  rw [banBlocksDeliver] at hret
  rcases hsort : sortByNumber delivered with _ | ⟨b0, rest⟩ <;>
    rw [hsort] at hret <;> dsimp only at hret
  · exact Option.noConfusion hret
  · split_ifs at hret with hh
    · have hspec := banAndEvict_spec hardcoded banned (banWalk b0 rest).hash
        hn hsub hlen hhard
      have hb2 : banAndEvict hardcoded banned (banWalk b0 rest).hash = banned2 :=
        Option.some.inj hret
      rw [hb2] at hspec
      exact hspec

/-- Witness for C8: banning one delivered block (hash 7) on a banned set
that holds the single hard-coded hash 5 plus hash 6 keeps hash 5 banned
and stays within the bound. -/
theorem banBlocks_banned_invariant_witness :
    (∀ x ∈ [(5 : Hash)], x ∈ newBanned [5]) ∧
    (∀ x ∈ [(5 : Hash)], x ∈ [(5 : Hash), 6, 7]) ∧
    ([(5 : Hash), 6, 7]).length ≤ maxBannedHashes :=
  banBlocks_banned_invariant [5] [5, 6] [5, 6, 7]
    [⟨7, 3, 4, 0, 1, 0, 0, 0, false⟩] 7
    (by decide) (by decide) (by decide) (by decide) (by decide)

/-- No branch of the fetchHashes loop ever adds to the attempted map: the
state carried out of any step has the same attempted map as the state
going in. -/
theorem fetchStep_attempted (hasBlock : Hash → Bool)
    (getBlock : Hash → Option Block) (banned : List Hash) (pick : Nat → Nat)
    (peers : List Peer) (st : FetchState) (ev : FetchEvent) :
    ((fetchStep hasBlock getBlock banned pick peers st ev).stateD st).attempted
      = st.attempted := by
  cases ev <;>
    simp only [fetchStep, onHashes, onBlocks, onCrossTick, onTimeout] <;>
    (repeat' split) <;>
    rfl

/-- Running the fetchHashes loop over any event sequence leaves the
attempted map unchanged. -/
theorem fetchRun_attempted (hasBlock : Hash → Bool)
    (getBlock : Hash → Option Block) (banned : List Hash) (pick : Nat → Nat)
    (peers : List Peer) :
    ∀ (evs : List FetchEvent) (st : FetchState),
    (fetchRun hasBlock getBlock banned pick peers evs st).2.attempted
      = st.attempted := by
  intro evs
  induction evs with
  | nil => intro st; rfl
  | cons e es ih =>
    intro st
    have hstep := fetchStep_attempted hasBlock getBlock banned pick peers st e
    rw [fetchRun]
    cases hs : fetchStep hasBlock getBlock banned pick peers st e with
    | «continue» st2 =>
      rw [hs] at hstep
      simp only [StepResult.stateD] at hstep
      show (fetchRun hasBlock getBlock banned pick peers es st2).2.attempted
        = st.attempted
      rw [ih st2]
      exact hstep
    | finished st2 off =>
      rw [hs] at hstep
      simp only [StepResult.stateD] at hstep
      exact hstep
    | failed err => rfl
    | panicked => rfl

/-- C4 amended: every timeout of the hash fetch hands the fetch to the
first registered peer whose advertised head is in the queue and whose id
is not in the attempted map, re-requesting from the last head hash, and
fails with ErrTimeout when no such peer exists or the head is still the
zero hash; but the attempted map never grows past the initial peer, so a
peer already switched to can be selected again by a later timeout. -/
theorem fetchHashes_timeout_amended (hasBlock : Hash → Bool)
    (getBlock : Hash → Option Block) (banned : List Hash) (pick : Nat → Nat)
    (peers : List Peer) (p : Peer) (h : Hash) (evs : List FetchEvent)
    (st : FetchState) :
    (fetchRun hasBlock getBlock banned pick peers evs (fetchInit p h)).2.attempted
      = [p.id] ∧
    (fetchStep hasBlock getBlock banned pick peers st FetchEvent.timeout =
      match peers.find? (fun q => st.queueHas q.head &&
          !st.attempted.contains q.id) with
      | none => StepResult.failed FetchErr.timeout
      | some q =>
        if st.head = 0 then StepResult.failed FetchErr.timeout
        else StepResult.continue { st with active := q }) :=
  ⟨fetchRun_attempted hasBlock getBlock banned pick peers evs (fetchInit p h),
    rfl⟩

/-- queue.Insert of pairwise-distinct hashes that are all new appends
them to the pool and reports exactly them as inserted. -/
theorem queueInsert_fresh :
    ∀ (hs pending : List Hash), hs.Nodup → (∀ h ∈ hs, h ∉ pending) →
    queueInsert pending hs = (pending ++ hs, hs) := by
  intro hs
  induction hs with
  | nil => intro pending _ _; simp [queueInsert]
  | cons h t ih =>
    intro pending hnd hfresh
    rw [queueInsert, if_neg (hfresh h (List.mem_cons_self h t))]
    have hrec := ih (pending ++ [h]) (List.Nodup.of_cons hnd)
      (fun x hx hmem => by
        rcases List.mem_append.mp hmem with h1 | h2
        · exact hfresh x (List.mem_cons_of_mem h hx) h1
        · have hxh : x = h := by simpa using h2
          subst hxh
          exact (List.nodup_cons.mp hnd).1 hx)
    rw [hrec]
    simp

/-- The 512 delivered hashes are pairwise distinct. -/
theorem exHashes_nodup : exHashes.Nodup :=
  List.Nodup.map (fun a b hab => by simpa using hab) (List.nodup_range 512)

set_option maxRecDepth 10000 in
/-- Delivering the 512 fresh hashes to the freshly initialised fetch loop
yields the expected continue state. -/
theorem fetchStep_deliver_eq :
    fetchStep (fun _ => false) (fun _ => none) [] (fun _ => 0) exPeers
        (fetchInit exPeerA 900) exEvDeliver = StepResult.continue exSt1 := by
  have hpend : (fetchInit exPeerA 900).pending = [900] := by decide
  have hq : queueInsert (fetchInit exPeerA 900).pending exHashes
      = ((fetchInit exPeerA 900).pending ++ exHashes, exHashes) :=
    queueInsert_fresh exHashes (fetchInit exPeerA 900).pending exHashes_nodup
      (fun x hx hmem => by
        rw [hpend] at hmem
        have hx900 : x = 900 := by simpa using hmem
        subst hx900
        obtain ⟨k, hk, hke⟩ := List.mem_map.mp hx
        rw [List.mem_range] at hk
        have hke2 : (100 : Nat) + k = (900 : Nat) := hke
        omega)
  show onHashes (fun _ => false) (fun _ => none) [] (fun _ => 0)
      (fetchInit exPeerA 900) 1 exHashes 50 = StepResult.continue exSt1
  unfold onHashes
  rw [hq]
  decide

set_option maxRecDepth 10000 in
/-- The first timeout after the delivery switches the active peer to peer
B, whose advertised head is among the queued hashes. -/
theorem fetchStep_timeout_eq1 :
    fetchStep (fun _ => false) (fun _ => none) [] (fun _ => 0) exPeers exSt1
        FetchEvent.timeout = StepResult.continue exSt2 := by
  decide

set_option maxRecDepth 10000 in
/-- A later timeout selects peer B again: the switched-to peer was never
recorded as attempted. -/
theorem fetchStep_timeout_eq2 :
    fetchStep (fun _ => false) (fun _ => none) [] (fun _ => 0) exPeers exSt2
        FetchEvent.timeout = StepResult.continue exSt2 := by
  decide

/-- Counterexample to C4: after the initial peer delivers 512 fresh
hashes, a first timeout switches the active peer to peer B (head inside
the queued hashes, never attempted); a second timeout selects peer B
again even though it has already served as the active peer, because the
switched-to peer is never recorded as attempted. -/
theorem fetchHashes_timeout_counterexample :
    ((fetchRun (fun _ => false) (fun _ => none) [] (fun _ => 0) exPeers
        [exEvDeliver, FetchEvent.timeout] (fetchInit exPeerA 900)).1
      = RunOutcome.running ∧
      (fetchRun (fun _ => false) (fun _ => none) [] (fun _ => 0) exPeers
        [exEvDeliver, FetchEvent.timeout] (fetchInit exPeerA 900)).2.active
      = exPeerB) ∧
    ((fetchRun (fun _ => false) (fun _ => none) [] (fun _ => 0) exPeers
        [exEvDeliver, FetchEvent.timeout, FetchEvent.timeout]
        (fetchInit exPeerA 900)).1 = RunOutcome.running ∧
      (fetchRun (fun _ => false) (fun _ => none) [] (fun _ => 0) exPeers
        [exEvDeliver, FetchEvent.timeout, FetchEvent.timeout]
        (fetchInit exPeerA 900)).2.active = exPeerB) := by
  have h2 : fetchRun (fun _ => false) (fun _ => none) [] (fun _ => 0) exPeers
      [exEvDeliver, FetchEvent.timeout] (fetchInit exPeerA 900) =
      (RunOutcome.running, exSt2) := by
    rw [fetchRun]
    simp only [fetchStep_deliver_eq]
    rw [fetchRun]
    simp only [fetchStep_timeout_eq1]
    rfl
  have h3 : fetchRun (fun _ => false) (fun _ => none) [] (fun _ => 0) exPeers
      [exEvDeliver, FetchEvent.timeout, FetchEvent.timeout]
      (fetchInit exPeerA 900) = (RunOutcome.running, exSt2) := by
    rw [fetchRun]
    simp only [fetchStep_deliver_eq]
    rw [fetchRun]
    simp only [fetchStep_timeout_eq1]
    rw [fetchRun]
    simp only [fetchStep_timeout_eq2]
    rfl
  rw [h2, h3]
  exact ⟨⟨rfl, rfl⟩, rfl, rfl⟩

/-- Walking i ancestors from the canonical block at height i collects the
hashes of the first i canonical blocks, most recent first. -/
theorem hashWalk_canonical (st : ChainState) (canon : List Block)
    (hnum : ∀ k b, canon.get? k = some b → b.number = k)
    (hlink : ∀ k b b', canon.get? k = some b → canon.get? (k + 1) = some b' →
      b'.parentHash = b.hash)
    (hstore : ∀ k b, canon.get? k = some b → st.getBlock b.hash = some b) :
    ∀ (i : Nat) (b : Block), canon.get? i = some b →
      hashWalk st b i = ((canon.take i).map Block.hash).reverse := by
  intro i
  induction i with
  | zero => intro b _; simp [hashWalk]
  | succ i ih =>
    intro b hb
    have hil : i + 1 < canon.length := (List.get?_eq_some.mp hb).1
    obtain ⟨p, hp⟩ : ∃ p, canon.get? i = some p := by
      rcases hq : canon.get? i with _ | p
      · rw [List.get?_eq_none] at hq; omega
      · exact ⟨p, rfl⟩
    have hbp : b.parentHash = p.hash := hlink i p b hp hb
    have hgp : st.getBlock b.parentHash = some p := by
      rw [hbp]; exact hstore i p hp
    have hpn : p.number = i := hnum i p hp
    have hp2 : canon[i]? = some p := by
      rw [← List.get?_eq_getElem?]
      exact hp
    have htake : canon.take (i + 1) = canon.take i ++ [p] := by
      rw [List.take_succ, hp2]
      rfl
    simp only [hashWalk, hgp]
    cases i with
    | zero =>
      rw [if_pos hpn]
      rw [htake]
      simp
    | succ j =>
      rw [if_neg (by omega)]
      rw [ih p hp, htake]
      simp

/-- C9: along a well-formed canonical chain, for every block number n
below the head's number, get_block_by_number(n).hash is element n of the
reversal of get_block_hashes_from(head.hash, head.number) (the walk
excludes the head itself, so exactly the numbers 0..head.number-1 are
indexable). -/
theorem getBlockByNumber_hashes_from (st : ChainState) (canon : List Block)
    (headB : Block)
    (hnum : ∀ k b, canon.get? k = some b → b.number = k)
    (hlink : ∀ k b b', canon.get? k = some b → canon.get? (k + 1) = some b' →
      b'.parentHash = b.hash)
    (hstore : ∀ k b, canon.get? k = some b → st.getBlock b.hash = some b)
    (hnumdb : ∀ k b, canon.get? k = some b → st.numDb.lookup k = some b.hash)
    (hhead : canon.get? (canon.length - 1) = some headB)
    (n : Nat) (hn : n < headB.number) :
    (st.getBlockByNumber n).map Block.hash =
      ((getBlockHashesFromHash st headB.hash headB.number).reverse).get? n := by
  have hhn : headB.number = canon.length - 1 := hnum (canon.length - 1) headB hhead
  have hlenpos : canon.length - 1 < canon.length := (List.get?_eq_some.mp hhead).1
  have hwalk : getBlockHashesFromHash st headB.hash headB.number =
      ((canon.take (canon.length - 1)).map Block.hash).reverse := by
    rw [getBlockHashesFromHash, hstore (canon.length - 1) headB hhead, hhn]
    exact hashWalk_canonical st canon hnum hlink hstore (canon.length - 1)
      headB hhead
  rw [hwalk, List.reverse_reverse]
  obtain ⟨cn, hcn⟩ : ∃ cn, canon.get? n = some cn := by
    rcases hq : canon.get? n with _ | cn
    · rw [List.get?_eq_none] at hq; omega
    · exact ⟨cn, rfl⟩
  have hlhs : st.getBlockByNumber n = some cn := by
    rw [ChainState.getBlockByNumber, hnumdb n cn hcn]
    exact hstore n cn hcn
  rw [hlhs]
  rw [List.get?_map, List.get?_take (by omega), hcn]

/-- Witness for C9: on the concrete three-block canonical chain, block
number 1 is recovered as element 1 of the reversed ancestor-hash walk
from the head. -/
theorem getBlockByNumber_hashes_from_witness :
    (exCanonSt.getBlockByNumber 1).map Block.hash =
      ((getBlockHashesFromHash exCanonSt exC2.hash exC2.number).reverse).get? 1 :=
  getBlockByNumber_hashes_from exCanonSt [exC0, exC1, exC2] exC2
    (fun k b hb => by
      match k with
      | 0 => have h1 : exC0 = b := by simpa using hb
             subst h1; decide
      | 1 => have h1 : exC1 = b := by simpa using hb
             subst h1; decide
      | 2 => have h1 : exC2 = b := by simpa using hb
             subst h1; decide
      | (m + 3) => simp at hb)
    (fun k b b' hb hb' => by
      match k with
      | 0 =>
        have h1 : exC0 = b := by simpa using hb
        have h2 : exC1 = b' := by simpa using hb'
        subst h1; subst h2; decide
      | 1 =>
        have h1 : exC1 = b := by simpa using hb
        have h2 : exC2 = b' := by simpa using hb'
        subst h1; subst h2; decide
      | 2 => simp at hb'
      | (m + 3) => simp at hb)
    (fun k b hb => by
      match k with
      | 0 => have h1 : exC0 = b := by simpa using hb
             subst h1; decide
      | 1 => have h1 : exC1 = b := by simpa using hb
             subst h1; decide
      | 2 => have h1 : exC2 = b := by simpa using hb
             subst h1; decide
      | (m + 3) => simp at hb)
    (fun k b hb => by
      match k with
      | 0 => have h1 : exC0 = b := by simpa using hb
             subst h1; decide
      | 1 => have h1 : exC1 = b := by simpa using hb
             subst h1; decide
      | 2 => have h1 : exC2 = b := by simpa using hb
             subst h1; decide
      | (m + 3) => simp at hb)
    (by decide) 1 (by decide)

end GethCore
